import Mathlib

/-! # Verification of the viXTTS text/audio preprocessing helpers

Shallow embedding of the pure algorithms in `src/wrapper/helper.py` and the
legacy `src/helper.py` of the `vixtts` repository:

* `normalize_numbers` — two sequential regex-substitution passes over the text
  (pattern `(\d+)` first, then `(\d+)\.(\d+)`), each replacing matches by a
  word reading supplied by the external `num2words` service (modelled as an
  abstract replacement function).
* `trim_silence` — RMS-frame based trailing-silence truncation
  (librosa's frame conventions, `center=True` zero padding).
* `split_into_sentences` — strong-boundary sentence split plus greedy
  length-bounded re-chunking with soft delimiters and Vietnamese conjunctions.
* `calculate_inference_params` — pure decision table on text statistics.
* `paragraph_to_audio` — the chunk pipeline, with the synthesis engine
  abstracted as a function parameter.

Strings are modelled as `List Char`, floats as `ℚ`, numpy buffers as
`List ℚ`.  Python code that can raise returns `Option`.
-/

namespace VixTTS

/-! ## Python string primitives -/

/-- Characters Python's `str.strip()` / `str.split()` treat as whitespace
(the ASCII whitespace set; the repository's inputs contain no exotic
unicode spaces). -/
def pyIsSpace (c : Char) : Bool :=
  c == ' ' || c == '\t' || c == '\n' || c == '\r' || c == '\x0b' || c == '\x0c'

/-- Left strip: Python `str.lstrip()`. -/
def ldropW (l : List Char) : List Char := l.dropWhile pyIsSpace

/-- Right strip: Python `str.rstrip()` (recursive formulation: a character is
kept iff it is non-space or something after it is kept). -/
def rdropW : List Char → List Char
  | [] => []
  | c :: rest =>
    let r := rdropW rest
    if r = [] && pyIsSpace c then [] else c :: r

/-- Python `str.strip()`. -/
def strip (l : List Char) : List Char := rdropW (ldropW l)

/-- Python `str.split()` with no argument: split on whitespace runs and drop
empty pieces.  `acc` holds the current word reversed. -/
def pySplitWsGo (acc : List Char) : List Char → List (List Char)
  | [] => if acc = [] then [] else [acc.reverse]
  | c :: rest =>
    if pyIsSpace c then
      (if acc = [] then [] else [acc.reverse]) ++ pySplitWsGo [] rest
    else
      pySplitWsGo (c :: acc) rest

def pySplitWs (l : List Char) : List (List Char) := pySplitWsGo [] l

/-- Python `" ".join(tokens)`. -/
def joinSpace : List (List Char) → List Char
  | [] => []
  | t :: rest => if rest = [] then t else t ++ ' ' :: joinSpace rest

/-- ASCII lowercase, modelling `str.lower()` (the conjunction words compared
in the source are already lowercase; only ASCII case-folding is exercised). -/
def pyLower (l : List Char) : List Char := l.map Char.toLower

/-! ## `normalize_numbers` (src/wrapper/helper.py lines 14-40, identical in
src/helper.py lines 12-28)

The source applies two `re.sub` passes in the order the `patterns` list is
written: first `(\d+)` with `num2words(int(m.group(1)))`, then
`(\d+)\.(\d+)` with `num2words(float(m.group(0)))`.  `num2words` is an
external locale service and is a function parameter here. -/

/-- Python `int(m.group(1))`: value of a digit run. -/
def digitsVal (l : List Char) : Nat :=
  l.foldl (fun a c => 10 * a + (c.toNat - 48)) 0

/-- One `re.sub(r"(\d+)", f, ·)` pass: maximal digit runs are replaced by
`f` applied to the run.  `run` holds the digits of the current run,
reversed. -/
def subIntGo (f : List Char → List Char) (run : List Char) :
    List Char → List Char
  | [] => if run = [] then [] else f run.reverse
  | c :: rest =>
    if c.isDigit then subIntGo f (c :: run) rest
    else (if run = [] then [] else f run.reverse) ++ c :: subIntGo f [] rest

def subInt (f : List Char → List Char) (l : List Char) : List Char :=
  subIntGo f [] l

/-- Scanner state for the `(\d+)\.(\d+)` pass: nothing pending, a pending
first digit run, a pending run plus the dot, or both runs pending.
Runs are stored reversed. -/
inductive DecSt : Type
  | s0 : DecSt
  | s1 : List Char → DecSt
  | s2 : List Char → DecSt
  | s3 : List Char → List Char → DecSt

/-- One `re.sub(r"(\d+)\.(\d+)", g, ·)` pass, as a left-to-right maximal-munch
scan (regex backtracking cannot shorten a greedy `\d+` into a match here, so
leftmost matches are exactly maximal run-dot-run triples). -/
def subDecGo (g : List Char → List Char) : DecSt → List Char → List Char
  | DecSt.s0, [] => []
  | DecSt.s1 r1, [] => r1.reverse
  | DecSt.s2 r1, [] => r1.reverse ++ ['.']
  | DecSt.s3 r1 r2, [] => g (r1.reverse ++ '.' :: r2.reverse)
  | DecSt.s0, c :: rest =>
    if c.isDigit then subDecGo g (DecSt.s1 [c]) rest
    else c :: subDecGo g DecSt.s0 rest
  | DecSt.s1 r1, c :: rest =>
    if c.isDigit then subDecGo g (DecSt.s1 (c :: r1)) rest
    else if c = '.' then subDecGo g (DecSt.s2 r1) rest
    else r1.reverse ++ c :: subDecGo g DecSt.s0 rest
  | DecSt.s2 r1, c :: rest =>
    if c.isDigit then subDecGo g (DecSt.s3 r1 [c]) rest
    else r1.reverse ++ '.' :: c :: subDecGo g DecSt.s0 rest
  | DecSt.s3 r1 r2, c :: rest =>
    if c.isDigit then subDecGo g (DecSt.s3 r1 (c :: r2)) rest
    else g (r1.reverse ++ '.' :: r2.reverse) ++ c :: subDecGo g DecSt.s0 rest

def subDec (g : List Char → List Char) (l : List Char) : List Char :=
  subDecGo g DecSt.s0 l

/-- The `normalize_numbers` function: the `patterns` list is applied sequentially, integer
pattern first, decimal pattern second — exactly the source order.
`n2wInt` models `lambda m: num2words(int(m.group(1)), lang='vi')` and
`n2wDec` models `lambda m: num2words(float(m.group(0)), lang='vi')`. -/
def normalize_numbers (n2wInt : Nat → List Char)
    (n2wDec : List Char → List Char) (text : List Char) : List Char :=
  subDec n2wDec (subInt (fun run => n2wInt (digitsVal run)) text)

/-- Python `normalize_text` (src/wrapper/helper.py lines 79-95): currently just
number normalization. -/
def normalize_text (n2wInt : Nat → List Char)
    (n2wDec : List Char → List Char) (text : List Char) : List Char :=
  normalize_numbers n2wInt n2wDec text

/-! ### Concrete stand-in for the external `num2words` Vietnamese service,
used only to evaluate the code on concrete inputs (the service itself is out
of scope; only the values for the inputs exercised below matter). -/

def viWordOfNat (n : Nat) : List Char :=
  if n = 2 then "hai".toList
  else if n = 5 then "năm".toList
  else "vài".toList

def viWordOfDec (l : List Char) : List Char :=
  if l = "2.5".toList then "hai phẩy năm".toList else "vài".toList

/-! ## Facts about `normalize_numbers` -/

theorem subIntGo_digit_free (f : List Char → List Char)
    (hf : ∀ r, (f r).all (fun c => !c.isDigit) = true) :
    ∀ (l run : List Char),
      (subIntGo f run l).all (fun c => !c.isDigit) = true := by
  intro l
  induction l with
  | nil =>
    intro run
    simp only [subIntGo]
    split
    · simp
    · exact hf _
  | cons c rest ih =>
    intro run
    simp only [subIntGo]
    by_cases hd : c.isDigit
    · simpa [hd] using ih (c :: run)
    · have hrest := ih []
      have hd' : c.isDigit = false := by simpa using hd
      have hemit : ((if run = [] then [] else f run.reverse).all
          fun c => !c.isDigit) = true := by
        split
        · simp
        · exact hf _
      simp [hd', hemit, hrest, List.all_append]

theorem subDecGo_of_digit_free (g : List Char → List Char) :
    ∀ (l : List Char), l.all (fun c => !c.isDigit) = true →
      subDecGo g DecSt.s0 l = l := by
  intro l
  induction l with
  | nil => intro _; rfl
  | cons c rest ih =>
    intro h
    simp only [List.all_cons, Bool.and_eq_true, Bool.not_eq_true'] at h
    simp [subDecGo, h.1, ih h.2]

theorem subIntGo_of_digit_free (f : List Char → List Char) :
    ∀ (l : List Char), l.all (fun c => !c.isDigit) = true →
      subIntGo f [] l = l := by
  intro l
  induction l with
  | nil => intro _; rfl
  | cons c rest ih =>
    intro h
    simp only [List.all_cons, Bool.and_eq_true, Bool.not_eq_true'] at h
    simp [subIntGo, h.1, ih h.2]

theorem subInt_of_digit_free (f : List Char → List Char) (l : List Char)
    (h : l.all (fun c => !c.isDigit) = true) : subInt f l = l :=
  subIntGo_of_digit_free f l h

/-- C9 (claim): after one pass of `normalize_numbers` no digit characters
remain (given the external number-to-words service produces digit-free
words), and a second pass returns the same string. -/
theorem normalize_numbers_digit_free_and_idem
    (n2wInt : Nat → List Char) (n2wDec : List Char → List Char)
    (hInt : ∀ n, (n2wInt n).all (fun c => !c.isDigit) = true)
    (text : List Char) :
    (normalize_numbers n2wInt n2wDec text).all (fun c => !c.isDigit) = true ∧
      normalize_numbers n2wInt n2wDec (normalize_numbers n2wInt n2wDec text) =
        normalize_numbers n2wInt n2wDec text := by
  have hsub : (subInt (fun run => n2wInt (digitsVal run)) text).all
      (fun c => !c.isDigit) = true :=
    subIntGo_digit_free _ (fun r => hInt (digitsVal r)) text []
  have hdec : subDec n2wDec (subInt (fun run => n2wInt (digitsVal run)) text) =
      subInt (fun run => n2wInt (digitsVal run)) text :=
    subDecGo_of_digit_free _ _ hsub
  constructor
  · unfold normalize_numbers
    rw [hdec]
    exact hsub
  · unfold normalize_numbers
    rw [hdec, subInt_of_digit_free _ _ hsub, hdec]

/-- Witness for C9: instantiating the service with a concrete digit-free
replacement and evaluating on `"a12b"`. -/
theorem normalize_numbers_digit_free_and_idem_witness :
    (normalize_numbers (fun _ => ['x']) (fun s => s) "a12b".toList).all
        (fun c => !c.isDigit) = true ∧
      normalize_numbers (fun _ => ['x']) (fun s => s)
          (normalize_numbers (fun _ => ['x']) (fun s => s) "a12b".toList) =
        normalize_numbers (fun _ => ['x']) (fun s => s) "a12b".toList :=
  normalize_numbers_digit_free_and_idem (fun _ => ['x']) (fun s => s)
    (fun _ => rfl) "a12b".toList

/-- C3 (code evaluated at the failing input): the source applies the bare
integer pattern FIRST, so `"2.5"` is rewritten to the readings of `2` and `5`
joined by the literal dot — not the single decimal reading the spec
requires (the decimal pattern can never fire afterwards). -/
theorem normalize_numbers_splits_decimal :
    normalize_numbers viWordOfNat viWordOfDec "2.5".toList = "hai.năm".toList ∧
      normalize_numbers viWordOfNat viWordOfDec "2.5".toList ≠
        viWordOfDec "2.5".toList := by
  constructor
  · rfl
  · decide

/-! ## `trim_silence` (src/wrapper/helper.py lines 43-76; src/helper.py
lines 31-63 with a different `keep_silence_duration` default)

`librosa.feature.rms(y, frame_length, hop_length)` uses `center=True`:
`y` is zero-padded by `frame_length // 2` on each side and frame `i` covers
`padded[i*hop : i*hop + frame_length]`; the number of frames is
`(len(padded) - frame_length) // hop + 1`.  RMS is `sqrt(meanSquare)`; since
`rms > threshold ↔ meanSquare > threshold²` for `threshold ≥ 0` (and is
always true for `threshold < 0` as rms is non-negative), the comparison is
embedded on mean squares to stay inside `ℚ`. -/

def sumSq (l : List ℚ) : ℚ := l.foldl (fun a x => a + x * x) 0

/-- Mean-square energy of each librosa RMS frame. -/
def rmsSqFrames (y : List ℚ) (frame_length hop_length : Nat) : List ℚ :=
  let pad := frame_length / 2
  let padded := List.replicate pad (0 : ℚ) ++ y ++ List.replicate pad (0 : ℚ)
  let n := if frame_length ≤ padded.length
    then (padded.length - frame_length) / hop_length + 1 else 0
  (List.range n).map
    (fun i => sumSq ((padded.drop (i * hop_length)).take frame_length) /
      (frame_length : ℚ))

/-- The test `rms[i] > threshold` expressed on the mean square `sq = rms[i]²`. -/
def frameAbove (threshold sq : ℚ) : Bool :=
  if 0 ≤ threshold then decide (threshold * threshold < sq) else true

/-- Index of the last element satisfying `p`
(`np.where(...)[0][-1]`, `none` when the match set is empty). -/
def lastIdxWhere (p : ℚ → Bool) (l : List ℚ) : Option Nat :=
  (l.foldl (fun (st : Nat × Option Nat) x =>
      (st.1 + 1, if p x then some st.1 else st.2)) (0, none)).2

/-- Python `int(q)`: truncation toward zero. -/
def pyTrunc (q : ℚ) : Int := q.num.tdiv q.den

/-- Python `l[:c]` for an arbitrary (possibly negative) integer `c`. -/
def pySlice {α : Type} (l : List α) (c : Int) : List α :=
  if 0 ≤ c then l.take c.toNat else l.take ((l.length : Int) + c).toNat

/-- Python `trim_silence`.  The unguarded `np.where(rms > threshold)[0][-1]` raises
`IndexError` on a fully silent buffer; that failure is modelled as `none`. -/
def trim_silence (audio_data : List ℚ) (sr : Nat) (threshold : ℚ)
    (frame_length hop_length : Nat) (keep_silence_duration : ℚ) :
    Option (List ℚ) :=
  let rms := rmsSqFrames audio_data frame_length hop_length
  match lastIdxWhere (frameAbove threshold) rms with
  | none => none
  | some last_frame =>
    let last_sample : Int := (last_frame * hop_length : Nat)
    let keep_silence_samples : Int := pyTrunc (keep_silence_duration * sr)
    some (pySlice audio_data
      (min (last_sample + keep_silence_samples) (audio_data.length : Int)))

/-- Python `fine_tune_audio` of the current pipeline (src/wrapper/helper.py lines
98-132): `sample_rate` from `kwargs.get("sample_rate", DEFAULT_SAMPLE_RATE)`,
keep-silence duration from the environment with default 0.2 s.  The default
sample rate (`wrapper/constants.py` is not part of the sources) and the
environment value are parameters. -/
def fine_tune_audio (dsr : Nat) (keepSil : ℚ) (audio : List ℚ)
    (kwargs : List (String × Nat)) : Option (List ℚ) :=
  let sample_rate := (List.lookup "sample_rate" kwargs).getD dsr
  trim_silence audio sample_rate (1 / 100) 2048 512 keepSil

/-- Legacy `fine_tune_audio` (src/helper.py lines 72-76): the sample rate is
looked up under the keyword `"gpt_cond_latent"` — not `"sample_rate"` — and
`trim_silence` is called with its legacy defaults
(`threshold=0.01, frame_length=2048, hop_length=512,
keep_silence_duration=0.8`). -/
def legacy_fine_tune_audio (dsr : Nat) (audio : List ℚ)
    (kwargs : List (String × Nat)) : Option (List ℚ) :=
  let sample_rate := (List.lookup "gpt_cond_latent" kwargs).getD dsr
  trim_silence audio sample_rate (1 / 100) 2048 512 (8 / 10)

/-! ## Facts about `trim_silence` -/

/-- C5: whenever some frame is above threshold, `trim_silence` returns
exactly the prefix `audio[:min(last_frame*hop + int(keep*sr), len(audio))]`,
which is a `take`-prefix of the input (samples unchanged and in order) of
length at most the input length. -/
theorem trim_silence_truncates (audio : List ℚ) (sr : Nat) (threshold : ℚ)
    (frame_length hop_length : Nat) (keep : ℚ) (lf : Nat)
    (h : lastIdxWhere (frameAbove threshold)
        (rmsSqFrames audio frame_length hop_length) = some lf) :
    trim_silence audio sr threshold frame_length hop_length keep =
      some (pySlice audio
        (min ((lf * hop_length : Nat) + pyTrunc (keep * sr))
          (audio.length : Int))) ∧
    ∃ n, n ≤ audio.length ∧
      pySlice audio
        (min ((lf * hop_length : Nat) + pyTrunc (keep * sr))
          (audio.length : Int)) = audio.take n := by
  constructor
  · simp [trim_silence, h]
  · unfold pySlice
    split
    · refine ⟨min (Int.toNat (min ((lf * hop_length : Nat) + pyTrunc (keep * sr))
        (audio.length : Int))) audio.length, Nat.min_le_right _ _, ?_⟩
      rw [List.take_eq_take]
      omega
    · refine ⟨min (Int.toNat ((audio.length : Int) +
        min ((lf * hop_length : Nat) + pyTrunc (keep * sr))
          (audio.length : Int))) audio.length, Nat.min_le_right _ _, ?_⟩
      rw [List.take_eq_take]
      omega

/-- Witness for C5 at a concrete buffer: one unit sample, frame length 1,
hop 1, threshold 1/2, keep duration 1 s at rate 2: the single frame is
active (index 0) and the whole buffer is returned. -/
theorem trim_silence_truncates_witness :
    lastIdxWhere (frameAbove (1 / 2)) (rmsSqFrames [1] 1 1) = some 0 ∧
    (trim_silence [1] 2 (1 / 2) 1 1 1 =
      some (pySlice [(1 : ℚ)]
        (min ((0 * 1 : Nat) + pyTrunc ((1 : ℚ) * ((2 : Nat) : ℚ)))
          (([(1 : ℚ)].length : Nat) : Int))) ∧
    ∃ n, n ≤ [(1 : ℚ)].length ∧
      pySlice [(1 : ℚ)]
        (min ((0 * 1 : Nat) + pyTrunc ((1 : ℚ) * ((2 : Nat) : ℚ)))
          (([(1 : ℚ)].length : Nat) : Int)) = [(1 : ℚ)].take n) := by
  have h0 : lastIdxWhere (frameAbove (1 / 2)) (rmsSqFrames [1] 1 1) =
      some 0 := by
    norm_num [lastIdxWhere, rmsSqFrames, sumSq, frameAbove, List.range_succ,
      List.foldl_cons, List.foldl_nil]
  exact ⟨h0, trim_silence_truncates [1] 2 (1 / 2) 1 1 1 0 h0⟩

/-- C6 (code evaluated at the failing input): a fully silent buffer makes
the unguarded `np.where(rms > threshold)[0][-1]` lookup fail — `trim_silence`
errors rather than returning (the failure is an `IndexError` escaping from
an unguarded index lookup, not an explicitly handled case). -/
theorem trim_silence_silent_fails :
    trim_silence [0, 0] 44100 (1 / 100) 1 1 (1 / 5) = none := by
  norm_num [trim_silence, lastIdxWhere, rmsSqFrames, sumSq, frameAbove,
    List.range_succ, List.foldl_cons, List.foldl_nil]

/-- C10: the legacy `fine_tune_audio` ignores the `sample_rate` keyword; for
any call passing `sample_rate = X` and no `"gpt_cond_latent"` keyword,
`trim_silence` runs with the default sample rate `dsr`, whatever `X` is. -/
theorem legacy_fine_tune_audio_ignores_sample_rate (dsr X : Nat)
    (audio : List ℚ) (kwargs : List (String × Nat))
    (h : List.lookup "gpt_cond_latent" kwargs = none) :
    legacy_fine_tune_audio dsr audio (("sample_rate", X) :: kwargs) =
      trim_silence audio dsr (1 / 100) 2048 512 (8 / 10) := by
  unfold legacy_fine_tune_audio
  simp [List.lookup, h]

/-- Witness for C10: default rate 24000, caller passes `sample_rate=16000`;
the trimmer still runs at 24000. -/
theorem legacy_fine_tune_audio_ignores_sample_rate_witness :
    List.lookup "gpt_cond_latent" ([] : List (String × Nat)) = none ∧
      legacy_fine_tune_audio 24000 [1] [("sample_rate", 16000)] =
        trim_silence [1] 24000 (1 / 100) 2048 512 (8 / 10) :=
  ⟨rfl, legacy_fine_tune_audio_ignores_sample_rate 24000 16000 [1] [] rfl⟩

/-! ## `split_into_sentences` (src/wrapper/helper.py lines 135-241) -/

/-- Soft delimiters `[,;:\-–—]` (comma, semicolon, colon, hyphen,
en dash, em dash). -/
def isSoftDelim (c : Char) : Bool :=
  c == ',' || c == ';' || c == ':' || c == '-' || c == '–' || c == '—'

/-- Strong sentence-ending characters `[.!?]`. -/
def isStrong (c : Char) : Bool :=
  c == '.' || c == '!' || c == '?'

/-- The closing quote/bracket class `[\"'”’)\]]` (the double and single
ASCII quotes are written by code point). -/
def isCloser (c : Char) : Bool :=
  c == Char.ofNat 34 || c == Char.ofNat 39 || c == '”' || c == '’' ||
    c == ')' || c == ']'

/-- The `ELLIPSIS_TOKEN` placeholder `"⟦ELLIPSIS⟧"`. -/
def ellTok : List Char := "⟦ELLIPSIS⟧".toList

/-- Python `text.replace("…", "...")`. -/
def expandEll : List Char → List Char
  | [] => []
  | c :: rest =>
    if c = '…' then '.' :: '.' :: '.' :: expandEll rest
    else c :: expandEll rest

/-- Python `text.replace("...", ELLIPSIS_TOKEN)` (leftmost, non-overlapping). -/
def protectEll : List Char → List Char
  | '.' :: '.' :: '.' :: rest => ellTok ++ protectEll rest
  | c :: rest => c :: protectEll rest
  | [] => []

/-- Python `chunk.replace(ELLIPSIS_TOKEN, "...")` (leftmost, non-overlapping).
`fuel` only forces structural termination: every step consumes at least one
character, so `fuel = l.length` (as used in `unprotectEll`) never runs out
before the input does. -/
def unprotectEllGo : Nat → List Char → List Char
  | _, [] => []
  | 0, l => l
  | fuel + 1, c :: rest =>
    if ellTok.isPrefixOf (c :: rest) then
      '.' :: '.' :: '.' :: unprotectEllGo fuel ((c :: rest).drop ellTok.length)
    else c :: unprotectEllGo fuel rest

def unprotectEll (l : List Char) : List Char := unprotectEllGo l.length l

/-- Length of the boundary-pattern match
`(?:ELLIPSIS_TOKEN|[.!?])(?:[\"'”’)\]]*)\s+` starting at the head of `cs`
(`none` when there is no match here).  The alternation tries the token
first; the two greedy character classes are disjoint, so no backtracking
can occur and the match is marker + all closers + all whitespace. -/
def matchBoundary (cs : List Char) : Option Nat :=
  let mark : Option Nat :=
    if ellTok.isPrefixOf cs then some ellTok.length
    else
      match cs with
      | c :: _ => if isStrong c then some 1 else none
      | [] => none
  match mark with
  | none => none
  | some k =>
    let after := cs.drop k
    let q := (after.takeWhile isCloser).length
    let w := ((after.drop q).takeWhile pyIsSpace).length
    if w = 0 then none else some (k + q + w)

/-- The `re.finditer` loop producing `base_sentences`: scan left to right;
at a match, close the sentence at the match end (strip it, restore the
ellipses, drop it if empty) and continue after the match; the tail after the
last match is its own sentence.  `acc` is the text accumulated since the
last boundary.  `fuel` only forces termination: every step consumes at least
one character of `cs`, so with `fuel = cs.length` (as used below) the fuel
case with a nonempty `cs` is unreachable, and with `cs = []` it coincides
with the tail case. -/
def findSentencesGo (fuel : Nat) (acc cs : List Char) : List (List Char) :=
  match fuel with
  | 0 =>
    let t := strip (acc ++ cs)
    if t = [] then [] else [unprotectEll t]
  | fuel + 1 =>
    match matchBoundary cs with
    | some k =>
      let sent := strip (acc ++ cs.take k)
      (if sent = [] then [] else [unprotectEll sent]) ++
        findSentencesGo fuel [] (cs.drop k)
    | none =>
      match cs with
      | [] =>
        let t := strip acc
        if t = [] then [] else [unprotectEll t]
      | c :: rest => findSentencesGo fuel (acc ++ [c]) rest

/-- Python `re.split(r"([,;:\-–—])", sentence)`: alternating text parts
(possibly empty) and single-delimiter parts.  `acc` holds the current text
part reversed. -/
def splitPartsGo (acc : List Char) : List Char → List (List Char)
  | [] => [acc.reverse]
  | c :: rest =>
    if isSoftDelim c then acc.reverse :: [c] :: splitPartsGo [] rest
    else splitPartsGo (c :: acc) rest

def splitParts (l : List Char) : List (List Char) := splitPartsGo [] l

/-- The merge loop re-attaching each delimiter to its preceding text part
(`parts[i] + parts[i+1]`, stepping by 2; a token is appended — stripped — if
it is non-empty before stripping). -/
def mergeParts : List (List Char) → List (List Char)
  | [] => []
  | [t] => if t = [] then [] else [strip t]
  | t :: d :: rest =>
    (if t ++ d = [] then [] else [strip (t ++ d)]) ++ mergeParts rest

/-- The Vietnamese conjunction set of the source (`language == "vi"`). -/
def viConj : List (List Char) :=
  ["và".toList, "nhưng".toList, "hoặc".toList, "rồi".toList, "thì".toList,
   "là".toList, "nên".toList, "vì".toList, "bởi".toList, "tuy".toList,
   "dù".toList]

/-- The characters of the Python strip set `".,;:-—– "` used on the last
buffer token. -/
def isPopStripChar (c : Char) : Bool :=
  c == '.' || c == ',' || c == ';' || c == ':' || c == '-' || c == '—' ||
    c == '–' || c == ' '

/-- Python `s.strip(".,;:-—– ")`: strip those characters from both ends. -/
def stripPopChars (l : List Char) : List Char :=
  ((l.dropWhile isPopStripChar).reverse.dropWhile isPopStripChar).reverse

/-- The condition under which the last buffer token is popped before a
flush: `last_word in vi_conj or (len(last) == 1 and last in ",;:-")`. -/
def popCond (language : String) (last : List Char) : Bool :=
  (language == "vi" && viConj.contains (stripPopChars (pyLower last))) ||
    (match last with
     | [c] => c == ',' || c == ';' || c == ':' || c == '-'
     | _ => false)

/-- Python `flush(buffer)` plus the `if out: chunks.append(out)` guard:
`" ".join(buffer).strip()`, kept only if non-empty. -/
def flushChunk (buffer : List (List Char)) : List (List Char) :=
  let c := strip (joinSpace buffer)
  if c = [] then [] else [c]

/-- The greedy packing loop over merged tokens (`for tok in merged`)
followed by the final flush.  NOTE (faithful to the source): when the pop
condition holds, `buffer.pop()` discards the popped token — the new buffer
is `[tok_stripped]` only, so the popped token appears in no chunk. -/
def packLoop (maxLen : Nat) (language : String) :
    List (List Char) → List (List Char) → Nat → List (List Char)
  | [], buffer, _ => flushChunk buffer
  | tok :: rest, buffer, curLen =>
    let ts := strip tok
    if ts = [] then packLoop maxLen language rest buffer curLen
    else if curLen + (if 0 < curLen then 1 else 0) + ts.length ≤ maxLen then
      packLoop maxLen language rest (buffer ++ [ts])
        (curLen + (if 0 < curLen then 1 else 0) + ts.length)
    else
      let buffer' :=
        match buffer.getLast? with
        | some last => if popCond language last then buffer.dropLast else buffer
        | none => buffer
      flushChunk buffer' ++ packLoop maxLen language rest [ts] ts.length

/-- Python `split_into_sentences(paragraph, max_len, language)`. -/
def split_into_sentences (paragraph : List Char) (maxLen : Nat)
    (language : String) : List (List Char) :=
  if paragraph = [] then []
  else
    let text := strip paragraph
    let text := protectEll (expandEll text)
    let base := findSentencesGo text.length [] text
    base.flatMap (fun sent =>
      if (strip sent).length ≤ maxLen then [strip sent]
      else packLoop maxLen language (mergeParts (splitParts (strip sent))) [] 0)

/-- Whether `pat` occurs as a contiguous subsequence of the second list. -/
def containsSeq (pat : List Char) : List Char → Bool
  | [] => pat.isPrefixOf []
  | c :: rest => pat.isPrefixOf (c :: rest) || containsSeq pat rest

/-- C1 (code evaluated at the failing input): on
`"ab cd, và, ef gh ij"` with `max_len = 10`, the buffer
`["ab cd,", "và,"]` is full when `"ef gh ij"` arrives; the last token
`"và,"` strips/folds to the conjunction `"và"`, is popped — and is then
dropped entirely: it neither ends the first chunk nor starts the second,
so a token IS lost. -/
theorem split_conjunction_token_lost :
    split_into_sentences "ab cd, và, ef gh ij".toList 10 "vi" =
      ["ab cd,".toList, "ef gh ij".toList] ∧
    (split_into_sentences "ab cd, và, ef gh ij".toList 10 "vi").all
      (fun c => !(containsSeq "và".toList c)) = true := by
  constructor
  · rfl
  · rfl

/-- C2 (code evaluated at the failing input): joining the chunks of
`"ab cd, và, ef gh ij"` (already whitespace-normalized, no ellipses) with
single spaces yields `"ab cd, ef gh ij"` — the conjunction token `"và,"`
was dropped, so concatenation does not reproduce the normalized input. -/
theorem split_chunks_join_loses_text :
    joinSpace (split_into_sentences "ab cd, và, ef gh ij".toList 10 "vi") =
      "ab cd, ef gh ij".toList ∧
    joinSpace (pySplitWs (expandEll "ab cd, và, ef gh ij".toList)) =
      "ab cd, và, ef gh ij".toList ∧
    "ab cd, ef gh ij".toList ≠ "ab cd, và, ef gh ij".toList := by
  refine ⟨rfl, rfl, ?_⟩
  decide

/-! ## `calculate_inference_params` (src/wrapper/helper.py lines 246-308) -/

/-- The synthesis parameter record. -/
structure InfParams where
  speed : ℚ
  length_penalty : ℚ
  temperature : ℚ
  repetition_penalty : ℚ
  enable_text_splitting : Bool
deriving DecidableEq

/-- The punctuation set `',.!?;:—-'` of the parameter calculator. -/
def isPunct (c : Char) : Bool :=
  c == ',' || c == '.' || c == '!' || c == '?' || c == ';' || c == ':' ||
    c == '—' || c == '-'

/-- Python `text.strip().lower().split()`: the word list the calculator counts. -/
def calcWords (text : List Char) : List (List Char) :=
  pySplitWs (pyLower (strip text))

def calculate_inference_params (text : List Char) : InfParams :=
  let t := strip text
  let text_len := t.length
  let punctuation_count := (t.filter isPunct).length
  let punctuation_density : ℚ := (punctuation_count : ℚ) / (max text_len 1 : ℚ)
  let words := calcWords text
  let unique_words := words.dedup.length
  let word_count := words.length
  let word_diversity : ℚ := (unique_words : ℚ) / (max word_count 1 : ℚ)
  if word_count < 15 then
    { speed := 104 / 100, length_penalty := 75 / 100, temperature := 8 / 10,
      repetition_penalty := 15 / 10, enable_text_splitting := false }
  else
    { speed :=
        if 5 / 100 < punctuation_density then 98 / 100
        else if 200 < text_len then 95 / 100
        else 1,
      length_penalty :=
        if text_len < 80 then 1
        else if 200 < text_len then 11 / 10
        else 105 / 100,
      temperature :=
        if 7 / 10 < word_diversity then 75 / 100
        else if word_diversity < 5 / 10 then 7 / 10
        else 72 / 100,
      repetition_penalty :=
        if 50 < word_count ∧ word_diversity < 6 / 10 then 4
        else if 30 < word_count then 3
        else 2,
      enable_text_splitting := false }

/-- The fixed very-short-input parameter set of the first branch. -/
def shortParams : InfParams :=
  { speed := 104 / 100, length_penalty := 75 / 100, temperature := 8 / 10,
    repetition_penalty := 15 / 10, enable_text_splitting := false }

/-- C7: a chunk of fewer than 15 whitespace-split words gets exactly
`{speed 1.04, length_penalty 0.75, temperature 0.8, repetition_penalty 1.5,
enable_text_splitting false}` and returns immediately; a chunk of 15 or more
words never gets that parameter set (so 14-word and 15-word chunks take
different branches); and `enable_text_splitting` is `false` for every
input. -/
theorem calculate_inference_params_short_branch (text : List Char) :
    ((calcWords text).length < 15 →
      calculate_inference_params text = shortParams) ∧
    (calculate_inference_params text).enable_text_splitting = false ∧
    (15 ≤ (calcWords text).length →
      calculate_inference_params text ≠ shortParams) := by
  refine ⟨?_, ?_, ?_⟩
  · intro h
    unfold calculate_inference_params
    rw [if_pos h]
    rfl
  · simp only [calculate_inference_params]
    split
    · rfl
    · rfl
  · intro h heq
    unfold calculate_inference_params at heq
    rw [if_neg (by omega)] at heq
    have hs := congrArg InfParams.speed heq
    simp only [shortParams] at hs
    split at hs
    · norm_num at hs
    · split at hs
      · norm_num at hs
      · norm_num at hs

/-- Witness for C7: a 14-word chunk gets the short-branch parameters, a
15-word chunk does not, and both have `enable_text_splitting = false`. -/
theorem calculate_inference_params_short_branch_witness :
    (calcWords "a b c d e f g h i j k l m n".toList).length < 15 ∧
      15 ≤ (calcWords "a b c d e f g h i j k l m n o".toList).length ∧
      calculate_inference_params "a b c d e f g h i j k l m n".toList =
        shortParams ∧
      calculate_inference_params "a b c d e f g h i j k l m n o".toList ≠
        shortParams ∧
      (calculate_inference_params
          "a b c d e f g h i j k l m n o".toList).enable_text_splitting =
        false := by
  have h14 := calculate_inference_params_short_branch
    "a b c d e f g h i j k l m n".toList
  have h15 := calculate_inference_params_short_branch
    "a b c d e f g h i j k l m n o".toList
  exact ⟨by decide, by decide, h14.1 (by decide), h15.2.2 (by decide),
    h15.2.1⟩

/-! ## `paragraph_to_audio` (src/wrapper/helper.py lines 322-375)

The synthesis engine (`model.inference`) is an abstract function parameter;
`DEFAULT_SAMPLE_RATE` and `DEFAULT_OUTPUT_FILE_LENGTH` come from
`wrapper/constants.py`, which is not among the sources, so they are
parameters `dsr` and `K`.  The Python dict (string keys are unique, insertion
order preserved) is an association list. -/

/-- Decimal rendering of `index` in the f-string `f"{index}_..."`. -/
def digitCh : Nat → Char
  | 0 => '0'
  | 1 => '1'
  | 2 => '2'
  | 3 => '3'
  | 4 => '4'
  | 5 => '5'
  | 6 => '6'
  | 7 => '7'
  | 8 => '8'
  | 9 => '9'
  | _ => 'x'

def natToDec (n : Nat) : List Char :=
  if n = 0 then ['0'] else ((Nat.digits 10 n).map digitCh).reverse

section Pipeline

variable (inference : List Char → String → InfParams → List ℚ)
variable (n2wInt : Nat → List Char) (n2wDec : List Char → List Char)
variable (K dsr : Nat) (keepSil : ℚ) (language : String)

/-- The body of the `for index, sentence in enumerate(sentences)` loop:
skip when `text = sentence.strip()` is empty (the index still advances),
otherwise `text = normalize_text(text)`, compute the parameters from that
normalized text, synthesize it, fine-tune the audio
(`sample_rate=DEFAULT_SAMPLE_RATE`), and store under
`f"{index}_{sentence[:K]}"` built from the raw sentence. -/
def p2aLoop : Nat → List (List Char) → List (List Char × Option (List ℚ))
  | _, [] => []
  | i, sentence :: rest =>
    if strip sentence = [] then p2aLoop (i + 1) rest
    else
      (natToDec i ++ '_' :: sentence.take K,
        fine_tune_audio dsr keepSil
          (inference (normalize_text n2wInt n2wDec (strip sentence)) language
            (calculate_inference_params
              (normalize_text n2wInt n2wDec (strip sentence))))
          [("sample_rate", dsr)]) :: p2aLoop (i + 1) rest

def paragraph_to_audio (paragraph : List Char) :
    List (List Char × Option (List ℚ)) :=
  p2aLoop inference n2wInt n2wDec K dsr keepSil language 0
    (split_into_sentences paragraph 250 language)

/-- One output entry as the claim describes it, for the enumerated chunk
`p = (index, chunk)`: key `"{index}_{chunk[:K]}"` from the raw chunk text;
value obtained by normalizing the chunk, computing parameters on the
normalized text, synthesizing, and trimming at the default sample rate. -/
def specChunkEntry (p : Nat × List Char) : List Char × Option (List ℚ) :=
  let ntext := normalize_text n2wInt n2wDec (strip p.2)
  (natToDec p.1 ++ '_' :: p.2.take K,
   trim_silence (inference ntext language (calculate_inference_params ntext))
     dsr (1 / 100) 2048 512 keepSil)

/-- The pipeline as the claim describes it: segment the raw paragraph,
enumerate the emitted chunks from zero, drop the chunks that strip to
nothing, and map each remaining chunk to its entry. -/
def specChunkPipeline (paragraph : List Char) :
    List (List Char × Option (List ℚ)) :=
  (((split_into_sentences paragraph 250 language).enum).filter
      (fun p => !(strip p.2).isEmpty)).map
    (specChunkEntry inference n2wInt n2wDec K dsr keepSil language)

theorem p2aLoop_eq_spec :
    ∀ (l : List (List Char)) (i : Nat),
      p2aLoop inference n2wInt n2wDec K dsr keepSil language i l =
        ((List.enumFrom i l).filter (fun p => !(strip p.2).isEmpty)).map
          (specChunkEntry inference n2wInt n2wDec K dsr keepSil language) := by
  intro l
  induction l with
  | nil => intro i; rfl
  | cons s rest ih =>
    intro i
    rw [show List.enumFrom i (s :: rest) =
      (i, s) :: List.enumFrom (i + 1) rest from rfl]
    by_cases hs : strip s = []
    · rw [List.filter_cons, if_neg (by simp [hs])]
      rw [show p2aLoop inference n2wInt n2wDec K dsr keepSil language i
          (s :: rest) = p2aLoop inference n2wInt n2wDec K dsr keepSil language
          (i + 1) rest by simp [p2aLoop, hs]]
      exact ih (i + 1)
    · rw [List.filter_cons, if_pos (by simp [hs])]
      simp only [p2aLoop, if_neg hs, List.map_cons]
      rw [ih (i + 1)]
      congr 1

/-- Every key produced from start index `i` embeds some index `j ≥ i`. -/
theorem p2aLoop_key_shape :
    ∀ (l : List (List Char)) (i : Nat) (k : List Char),
      k ∈ (p2aLoop inference n2wInt n2wDec K dsr keepSil language i l).map
          Prod.fst →
        ∃ j s, i ≤ j ∧ k = natToDec j ++ '_' :: s := by
  intro l
  induction l with
  | nil => intro i k hk; simp [p2aLoop] at hk
  | cons s rest ih =>
    intro i k hk
    by_cases hs : strip s = []
    · rw [show p2aLoop inference n2wInt n2wDec K dsr keepSil language i
          (s :: rest) = p2aLoop inference n2wInt n2wDec K dsr keepSil language
          (i + 1) rest by simp [p2aLoop, hs]] at hk
      obtain ⟨j, w, hj, hw⟩ := ih (i + 1) k hk
      exact ⟨j, w, by omega, hw⟩
    · simp only [p2aLoop, if_neg hs, List.map_cons, List.mem_cons] at hk
      rcases hk with hk | hk
      · exact ⟨i, s.take K, le_refl i, hk⟩
      · obtain ⟨j, w, hj, hw⟩ := ih (i + 1) k hk
        exact ⟨j, w, by omega, hw⟩

end Pipeline

/-! ### Key uniqueness: `f"{index}_..."` keys with distinct indices are
distinct strings, because the decimal part contains no underscore and
decimal rendering is injective. -/

theorem digitCh_lt_ten_ne_underscore {d : Nat} (hd : d < 10) :
    digitCh d ≠ '_' := by
  interval_cases d <;> decide

theorem digitCh_lt_ten_inj {d e : Nat} (hd : d < 10) (he : e < 10)
    (h : digitCh d = digitCh e) : d = e := by
  interval_cases d <;> interval_cases e <;> simp_all [digitCh]

theorem natToDec_no_underscore (n : Nat) : '_' ∉ natToDec n := by
  unfold natToDec
  split
  · decide
  · intro hmem
    rw [List.mem_reverse, List.mem_map] at hmem
    obtain ⟨d, hd, hch⟩ := hmem
    exact digitCh_lt_ten_ne_underscore
      (Nat.digits_lt_base (by norm_num) hd) hch

theorem map_digitCh_inj :
    ∀ (l1 l2 : List Nat), (∀ d ∈ l1, d < 10) → (∀ d ∈ l2, d < 10) →
      l1.map digitCh = l2.map digitCh → l1 = l2 := by
  intro l1
  induction l1 with
  | nil =>
    intro l2 _ _ h
    cases l2 with
    | nil => rfl
    | cons d r => simp at h
  | cons d r ih =>
    intro l2 h1 h2 h
    cases l2 with
    | nil => simp at h
    | cons e w =>
      simp only [List.map_cons, List.cons.injEq] at h
      have hde : d = e := digitCh_lt_ten_inj
        (h1 d (List.mem_cons_self d r)) (h2 e (List.mem_cons_self e w)) h.1
      have hrw : r = w := ih w
        (fun x hx => h1 x (List.mem_cons_of_mem d hx))
        (fun x hx => h2 x (List.mem_cons_of_mem e hx)) h.2
      rw [hde, hrw]

theorem natToDec_eq_single_zero {n : Nat} (h : natToDec n = ['0']) :
    n = 0 := by
  by_contra hn
  unfold natToDec at h
  rw [if_neg hn] at h
  have hdig : (Nat.digits 10 n).map digitCh = ['0'] := by
    have := congrArg List.reverse h
    simpa using this
  have hlen : (Nat.digits 10 n).length = 1 := by
    have := congrArg List.length hdig
    simpa using this
  rw [List.length_eq_one] at hlen
  obtain ⟨d, hd⟩ := hlen
  rw [hd] at hdig
  simp only [List.map_cons, List.map_nil, List.cons.injEq, and_true] at hdig
  have hd10 : d < 10 := Nat.digits_lt_base (by norm_num)
    (by rw [hd]; exact List.mem_cons_self d [])
  have hd0 : d = 0 := digitCh_lt_ten_inj hd10 (by norm_num)
    (by rw [hdig]; rfl)
  have hof := Nat.ofDigits_digits 10 n
  rw [hd, hd0] at hof
  simp [Nat.ofDigits] at hof
  exact hn hof.symm

theorem natToDec_inj {m n : Nat} (h : natToDec m = natToDec n) : m = n := by
  by_cases hm : m = 0 <;> by_cases hn : n = 0
  · omega
  · exfalso
    rw [hm] at h
    exact hn (natToDec_eq_single_zero h.symm)
  · exfalso
    rw [hn] at h
    exact hm (natToDec_eq_single_zero h)
  · unfold natToDec at h
    rw [if_neg hm, if_neg hn] at h
    have hrev := congrArg List.reverse h
    simp only [List.reverse_reverse] at hrev
    have hdig := map_digitCh_inj (Nat.digits 10 m) (Nat.digits 10 n)
      (fun d hd => Nat.digits_lt_base (by norm_num) hd)
      (fun d hd => Nat.digits_lt_base (by norm_num) hd) hrev
    have h1 := Nat.ofDigits_digits 10 m
    rw [hdig, Nat.ofDigits_digits 10 n] at h1
    exact h1.symm

theorem key_split {l1 l2 s t : List Char} (h1 : '_' ∉ l1) (h2 : '_' ∉ l2)
    (h : l1 ++ '_' :: s = l2 ++ '_' :: t) : l1 = l2 ∧ s = t := by
  induction l1 generalizing l2 with
  | nil =>
    cases l2 with
    | nil => simpa using h
    | cons c r =>
      exfalso
      simp only [List.nil_append, List.cons_append, List.cons.injEq] at h
      exact h2 (by rw [h.1]; exact List.mem_cons_self c r)
  | cons c r ih =>
    cases l2 with
    | nil =>
      exfalso
      simp only [List.nil_append, List.cons_append, List.cons.injEq] at h
      exact h1 (by rw [← h.1]; exact List.mem_cons_self c r)
    | cons e w =>
      simp only [List.cons_append, List.cons.injEq] at h
      have := ih (fun hx => h1 (List.mem_cons_of_mem c hx))
        (fun hx => h2 (List.mem_cons_of_mem e hx)) h.2
      exact ⟨by rw [h.1, this.1], this.2⟩

theorem key_index_inj {i j : Nat} {s t : List Char}
    (h : natToDec i ++ '_' :: s = natToDec j ++ '_' :: t) : i = j :=
  natToDec_inj (key_split (natToDec_no_underscore i)
    (natToDec_no_underscore j) h).1

section Pipeline2

variable (inference : List Char → String → InfParams → List ℚ)
variable (n2wInt : Nat → List Char) (n2wDec : List Char → List Char)
variable (K dsr : Nat) (keepSil : ℚ) (language : String)

theorem p2aLoop_keys_nodup :
    ∀ (l : List (List Char)) (i : Nat),
      ((p2aLoop inference n2wInt n2wDec K dsr keepSil language i l).map
        Prod.fst).Nodup := by
  intro l
  induction l with
  | nil => intro i; simp [p2aLoop]
  | cons s rest ih =>
    intro i
    by_cases hs : strip s = []
    · simpa only [p2aLoop, hs, if_pos] using ih (i + 1)
    · simp only [p2aLoop, hs, if_neg, List.map_cons]
      refine List.nodup_cons.mpr ⟨?_, ih (i + 1)⟩
      intro hmem
      obtain ⟨j, w, hj, hw⟩ := p2aLoop_key_shape inference n2wInt n2wDec K dsr
        keepSil language rest (i + 1) _ hmem
      have := key_index_inj hw
      omega

/-- C8: the pipeline equals its spec description — segment the raw
paragraph; for each chunk that does not strip to nothing (in segmentation
order, index counted over all emitted chunks), normalize numbers, compute
parameters on the normalized text, synthesize, trim, and store under the
key `"{index}_{raw_chunk[:K]}"`; skipped chunks produce no entry — and the
keys of the result are pairwise distinct. -/
theorem paragraph_to_audio_spec
    (paragraph : List Char) :
    paragraph_to_audio inference n2wInt n2wDec K dsr keepSil language
        paragraph =
      specChunkPipeline inference n2wInt n2wDec K dsr keepSil language
        paragraph ∧
    ((paragraph_to_audio inference n2wInt n2wDec K dsr keepSil language
        paragraph).map Prod.fst).Nodup := by
  constructor
  · unfold paragraph_to_audio specChunkPipeline
    rw [p2aLoop_eq_spec]
    rfl
  · exact p2aLoop_keys_nodup inference n2wInt n2wDec K dsr keepSil language _ 0

end Pipeline2

/-! ## Invariants of `split_into_sentences` (C4)

The length-bound invariant: every emitted chunk either fits in `max_len`
or is a single merged token, whose only possible soft delimiter is its
trailing one. -/

/-- No soft delimiter at all. -/
def delimFree (l : List Char) : Bool := l.all (fun c => !isSoftDelim c)

/-- Soft delimiters may appear only as the final character. -/
def internalOk (l : List Char) : Bool := delimFree l.dropLast

/-- Length of `" ".join(buffer)`. -/
def joinLen (b : List (List Char)) : Nat := (joinSpace b).length

theorem rdropW_subset {c : Char} :
    ∀ {l : List Char}, c ∈ rdropW l → c ∈ l := by
  intro l
  induction l with
  | nil => intro h; simp [rdropW] at h
  | cons a t ih =>
    intro h
    simp only [rdropW] at h
    split at h
    · simp at h
    · rcases List.mem_cons.mp h with h | h
      · exact List.mem_cons.mpr (Or.inl h)
      · exact List.mem_cons.mpr (Or.inr (ih h))

theorem strip_subset {c : Char} {l : List Char} (h : c ∈ strip l) : c ∈ l :=
  (List.dropWhile_sublist pyIsSpace).subset (rdropW_subset h)

theorem rdropW_length_le : ∀ (l : List Char), (rdropW l).length ≤ l.length := by
  intro l
  induction l with
  | nil => simp [rdropW]
  | cons a t ih =>
    simp only [rdropW]
    split
    · simp
    · simpa using ih

theorem strip_length_le (l : List Char) : (strip l).length ≤ l.length :=
  le_trans (rdropW_length_le (ldropW l))
    ((List.dropWhile_sublist pyIsSpace).length_le)

theorem rdropW_eq_nil_iff :
    ∀ (l : List Char), rdropW l = [] ↔ ∀ c ∈ l, pyIsSpace c = true := by
  intro l
  induction l with
  | nil => simp [rdropW]
  | cons a t ih =>
    simp only [rdropW]
    constructor
    · intro h
      split at h
      · rename_i hcond
        rw [Bool.and_eq_true] at hcond
        intro c hc
        rcases List.mem_cons.mp hc with rfl | hc
        · exact hcond.2
        · exact (ih.mp (by simpa using hcond.1)) c hc
      · simp at h
    · intro h
      have ht : rdropW t = [] := ih.mpr (fun c hc => h c (List.mem_cons_of_mem a hc))
      rw [if_pos]
      rw [Bool.and_eq_true]
      exact ⟨by simpa using ht, h a (List.mem_cons_self a t)⟩

theorem strip_eq_nil_iff (l : List Char) :
    strip l = [] ↔ ∀ c ∈ l, pyIsSpace c = true := by
  unfold strip ldropW
  rw [rdropW_eq_nil_iff]
  constructor
  · intro h c hc
    have hc2 : c ∈ List.takeWhile pyIsSpace l ++ List.dropWhile pyIsSpace l := by
      rw [List.takeWhile_append_dropWhile]
      exact hc
    rcases List.mem_append.mp hc2 with h1 | h2
    · exact List.mem_takeWhile_imp h1
    · exact h c h2
  · intro h c hc
    exact h c ((List.dropWhile_sublist pyIsSpace).subset hc)

theorem rdropW_idem : ∀ (l : List Char), rdropW (rdropW l) = rdropW l := by
  intro l
  induction l with
  | nil => rfl
  | cons a t ih =>
    simp only [rdropW]
    split
    · rfl
    · rename_i hcond
      simp only [rdropW, ih]
      rw [if_neg hcond]

theorem rdropW_cons_shape (a : Char) (t : List Char) :
    rdropW (a :: t) = [] ∨ rdropW (a :: t) = a :: rdropW t := by
  simp only [rdropW]
  split
  · exact Or.inl rfl
  · exact Or.inr rfl

theorem ldropW_head_nonspace (l : List Char) :
    ldropW l = [] ∨
      ∃ c t, ldropW l = c :: t ∧ pyIsSpace c = false := by
  induction l with
  | nil => exact Or.inl rfl
  | cons a t ih =>
    by_cases ha : pyIsSpace a = true
    · simpa [ldropW, List.dropWhile_cons, ha] using ih
    · refine Or.inr ⟨a, t, ?_, by simpa using ha⟩
      simp [ldropW, List.dropWhile_cons, ha]

theorem ldropW_cons_nonspace {a : Char} (t : List Char)
    (ha : pyIsSpace a = false) : ldropW (a :: t) = a :: t := by
  simp [ldropW, List.dropWhile_cons, ha]

theorem strip_idem (l : List Char) : strip (strip l) = strip l := by
  unfold strip
  rcases ldropW_head_nonspace l with h0 | ⟨c, t, heq, hc⟩
  · rw [h0]
    rfl
  · rw [heq]
    rcases rdropW_cons_shape c t with h1 | h1
    · rw [h1]; rfl
    · rw [h1, ldropW_cons_nonspace _ hc, ← h1, rdropW_idem]

theorem strip_head_nonspace {l : List Char} (h : strip l ≠ []) :
    ∃ c t, strip l = c :: t ∧ pyIsSpace c = false := by
  unfold strip at h ⊢
  rcases ldropW_head_nonspace l with h0 | ⟨c, t, heq, hc⟩
  · rw [h0] at h; simp [rdropW] at h
  · rw [heq] at h ⊢
    rcases rdropW_cons_shape c t with h1 | h1
    · exact absurd h1 h
    · exact ⟨c, rdropW t, h1, hc⟩

theorem strip_any_nonspace {l : List Char} (hne : strip l = l) (h : l ≠ []) :
    l.any (fun c => !pyIsSpace c) = true := by
  by_contra hall
  have : ∀ c ∈ l, pyIsSpace c = true := by
    intro c hc
    by_contra hcs
    exact hall (List.any_eq_true.mpr ⟨c, hc, by simpa using hcs⟩)
  have := (strip_eq_nil_iff l).mpr this
  rw [hne] at this
  exact h this

theorem joinSpace_single (t : List Char) : joinSpace [t] = t := rfl

theorem joinSpace_append_single (b : List (List Char)) (t : List Char) :
    joinSpace (b ++ [t]) =
      if b = [] then t else joinSpace b ++ ' ' :: t := by
  induction b with
  | nil => rfl
  | cons s r ih =>
    simp only [List.cons_append, joinSpace]
    by_cases hr : r = []
    · subst hr
      simp [joinSpace]
    · have hrt : r ++ [t] ≠ [] := by simp
      simp only [List.append_eq]
      rw [if_neg hrt, if_neg (by simp : ¬(s :: r = [])), ih, if_neg hr,
        if_neg hr]
      simp

theorem joinLen_append_single (b : List (List Char)) (t : List Char) :
    joinLen (b ++ [t]) =
      joinLen b + (if b = [] then 0 else 1) + t.length := by
  unfold joinLen
  rw [joinSpace_append_single]
  split
  · rename_i hb
    subst hb
    simp [joinSpace]
  · simp [List.length_append]
    omega

theorem joinLen_dropLast_le (b : List (List Char)) :
    joinLen b.dropLast ≤ joinLen b := by
  rcases List.eq_nil_or_concat b with rfl | ⟨b0, t0, rfl⟩
  · simp
  · simp only [List.concat_eq_append]
    rw [List.dropLast_concat, joinLen_append_single]
    omega

theorem joinLen_pos {b : List (List Char)} (hb : b ≠ [])
    (hel : ∀ t ∈ b, t ≠ []) : 0 < joinLen b := by
  rcases List.eq_nil_or_concat b with rfl | ⟨b0, t0, rfl⟩
  · exact absurd rfl hb
  · simp only [List.concat_eq_append] at hel ⊢
    rw [joinLen_append_single]
    have ht0 : t0 ≠ [] := hel t0 (by simp)
    have : 0 < t0.length := List.length_pos.mpr ht0
    omega

theorem delimFree_of_subset {l1 l2 : List Char}
    (hsub : ∀ c ∈ l2, c ∈ l1) (h : delimFree l1 = true) :
    delimFree l2 = true := by
  rw [delimFree, List.all_eq_true] at h ⊢
  exact fun c hc => h c (hsub c hc)

theorem softDelim_nonspace {c : Char} (h : isSoftDelim c = true) :
    pyIsSpace c = false := by
  simp only [isSoftDelim, Bool.or_eq_true, beq_iff_eq] at h
  rcases h with ((((rfl | rfl) | rfl) | rfl) | rfl) | rfl <;> rfl

theorem ldropW_idem (l : List Char) : ldropW (ldropW l) = ldropW l := by
  rcases ldropW_head_nonspace l with h0 | ⟨c, t, heq, hc⟩
  · rw [h0]; rfl
  · rw [heq]
    exact ldropW_cons_nonspace t hc

theorem ldropW_append_nonspace {c : Char} (hc : pyIsSpace c = false) :
    ∀ (l : List Char), ldropW (l ++ [c]) = ldropW l ++ [c] := by
  intro l
  induction l with
  | nil =>
    simp [ldropW, List.dropWhile_cons, hc]
  | cons a t ih =>
    by_cases ha : pyIsSpace a = true
    · simp only [List.cons_append, ldropW, List.dropWhile_cons, ha, if_true]
      exact ih
    · have ha' : pyIsSpace a = false := by simpa using ha
      simp [ldropW, List.dropWhile_cons, ha']

theorem rdropW_append_nonspace {c : Char} (hc : pyIsSpace c = false) :
    ∀ (l : List Char), rdropW (l ++ [c]) = l ++ [c] := by
  intro l
  induction l with
  | nil =>
    simp [rdropW, hc]
  | cons a t ih =>
    simp only [List.cons_append, rdropW, List.append_eq, ih]
    rw [if_neg (by simp)]

theorem strip_append_nonspace {c : Char} (hc : pyIsSpace c = false)
    (l : List Char) : strip (l ++ [c]) = ldropW l ++ [c] := by
  unfold strip
  rw [ldropW_append_nonspace hc, rdropW_append_nonspace hc]

/-- Tokens coming out of `mergeParts (splitParts s)` are already stripped and
have soft delimiters only in final position. -/
theorem mergeParts_splitPartsGo_ok :
    ∀ (cs acc : List Char), delimFree acc = true →
      ∀ t ∈ mergeParts (splitPartsGo acc cs),
        strip t = t ∧ internalOk t = true := by
  intro cs
  induction cs with
  | nil =>
    intro acc hacc t ht
    simp only [splitPartsGo, mergeParts] at ht
    split at ht
    · simp at ht
    · rw [List.mem_singleton] at ht
      subst ht
      have hsubr : ∀ c ∈ strip acc.reverse, c ∈ acc := by
        intro c hc
        have := strip_subset hc
        simpa using this
      refine ⟨strip_idem _, ?_⟩
      unfold internalOk
      refine delimFree_of_subset ?_ hacc
      intro c hc
      exact hsubr c ((List.dropLast_sublist _).subset hc)
  | cons a rest ih =>
    intro acc hacc t ht
    by_cases ha : isSoftDelim a = true
    · simp only [splitPartsGo, ha, if_true, mergeParts] at ht
      rw [if_neg (by simp)] at ht
      rcases List.mem_append.mp ht with ht | ht
      · rw [List.mem_singleton] at ht
        subst ht
        have hans : pyIsSpace a = false := softDelim_nonspace ha
        rw [strip_append_nonspace hans]
        constructor
        · rw [strip_append_nonspace hans, ldropW_idem]
        · unfold internalOk
          rw [List.dropLast_concat]
          refine delimFree_of_subset ?_ hacc
          intro c hc
          have := (List.dropWhile_sublist pyIsSpace).subset hc
          simpa using this
      · exact ih [] rfl t ht
    · have ha' : isSoftDelim a = false := by simpa using ha
      simp only [splitPartsGo, ha', Bool.false_eq_true, if_false] at ht
      refine ih (a :: acc) ?_ t ht
      rw [delimFree, List.all_cons, Bool.and_eq_true]
      exact ⟨by simpa using ha', hacc⟩

/-- The scanner `unprotectEllGo` preserves the presence of a non-whitespace character
(the replacement `"..."` is itself non-whitespace). -/
theorem unprotectEllGo_any_nonspace :
    ∀ (fuel : Nat) (l : List Char),
      l.any (fun c => !pyIsSpace c) = true →
      (unprotectEllGo fuel l).any (fun c => !pyIsSpace c) = true := by
  intro fuel
  induction fuel with
  | zero =>
    intro l hl
    cases l with
    | nil => simp at hl
    | cons c rest => simpa [unprotectEllGo] using hl
  | succ n ih =>
    intro l hl
    cases l with
    | nil => simp at hl
    | cons c rest =>
      simp only [unprotectEllGo]
      split
      · have hdot : (fun c => !pyIsSpace c) '.' = true := rfl
        simp [List.any_cons, hdot]
      · rw [List.any_cons] at hl ⊢
        rcases Bool.or_eq_true _ _ |>.mp hl with h | h
        · rw [h]
          simp
        · rw [ih rest h]
          simp

theorem unprotectEll_any_nonspace {l : List Char}
    (h : l.any (fun c => !pyIsSpace c) = true) :
    (unprotectEll l).any (fun c => !pyIsSpace c) = true :=
  unprotectEllGo_any_nonspace l.length l h

theorem strip_ne_nil_of_any {l : List Char}
    (h : l.any (fun c => !pyIsSpace c) = true) : strip l ≠ [] := by
  intro hnil
  rw [strip_eq_nil_iff] at hnil
  rw [List.any_eq_true] at h
  obtain ⟨c, hc, hcs⟩ := h
  rw [hnil c hc] at hcs
  simp at hcs

/-- Every base sentence produced by the boundary scanner is the
ellipsis-restoration of a non-empty stripped string. -/
theorem findSentencesGo_shape :
    ∀ (fuel : Nat) (acc cs : List Char),
      ∀ b ∈ findSentencesGo fuel acc cs,
        ∃ y, b = unprotectEll y ∧ strip y = y ∧ y ≠ [] := by
  intro fuel
  induction fuel with
  | zero =>
    intro acc cs b hb
    simp only [findSentencesGo] at hb
    split at hb
    · simp at hb
    · rename_i hne
      rw [List.mem_singleton] at hb
      exact ⟨strip (acc ++ cs), hb, strip_idem _, hne⟩
  | succ n ih =>
    intro acc cs b hb
    cases cs with
    | nil =>
      simp only [findSentencesGo,
        show matchBoundary ([] : List Char) = none from rfl] at hb
      split at hb
      · simp at hb
      · rename_i hne
        rw [List.mem_singleton] at hb
        exact ⟨strip acc, hb, strip_idem _, hne⟩
    | cons c rest =>
      simp only [findSentencesGo] at hb
      rcases hmb : matchBoundary (c :: rest) with _ | k
      · simp only [hmb] at hb
        exact ih (acc ++ [c]) rest b hb
      · simp only [hmb] at hb
        rcases List.mem_append.mp hb with hb | hb
        · split at hb
          · simp at hb
          · rename_i hne
            rw [List.mem_singleton] at hb
            exact ⟨strip (acc ++ (c :: rest).take k), hb, strip_idem _, hne⟩
        · exact ih [] ((c :: rest).drop k) b hb

/-- Property of every emitted chunk: non-empty, stripped, and either within
the length bound or with soft delimiters only in final position. -/
def chunkOk (maxLen : Nat) (c : List Char) : Prop :=
  c ≠ [] ∧ strip c = c ∧ (c.length ≤ maxLen ∨ internalOk c = true)

theorem flushChunk_ok {maxLen : Nat} {buffer : List (List Char)}
    (hdisj : joinLen buffer ≤ maxLen ∨
      ∃ t, buffer = [t] ∧ internalOk t = true)
    (hbuf : ∀ t ∈ buffer, strip t = t ∧ t ≠ []) :
    ∀ c ∈ flushChunk buffer, chunkOk maxLen c := by
  intro c hc
  simp only [flushChunk] at hc
  split at hc
  · simp at hc
  · rename_i hne
    rw [List.mem_singleton] at hc
    subst hc
    refine ⟨hne, strip_idem _, ?_⟩
    rcases hdisj with hle | ⟨t, rfl, hint⟩
    · exact Or.inl (le_trans (strip_length_le _) hle)
    · right
      rw [joinSpace_single, (hbuf t (by simp)).1]
      exact hint

theorem packLoop_chunkOk (maxLen : Nat) (language : String) :
    ∀ (toks buffer : List (List Char)) (curLen : Nat),
      curLen = joinLen buffer →
      (joinLen buffer ≤ maxLen ∨ ∃ t, buffer = [t] ∧ internalOk t = true) →
      (∀ t ∈ buffer, strip t = t ∧ t ≠ []) →
      (∀ t ∈ toks, strip t = t ∧ internalOk t = true) →
      ∀ c ∈ packLoop maxLen language toks buffer curLen,
        chunkOk maxLen c := by
  intro toks
  induction toks with
  | nil =>
    intro buffer curLen hcur hdisj hbuf htoks c hc
    simp only [packLoop] at hc
    exact flushChunk_ok hdisj hbuf c hc
  | cons tok rest ih =>
    intro buffer curLen hcur hdisj hbuf htoks c hc
    have htok := htoks tok (List.mem_cons_self tok rest)
    have htoks' : ∀ t ∈ rest, strip t = t ∧ internalOk t = true :=
      fun t ht => htoks t (List.mem_cons_of_mem tok ht)
    simp only [packLoop, htok.1] at hc
    by_cases hts : tok = []
    · rw [if_pos hts] at hc
      exact ih buffer curLen hcur hdisj hbuf htoks' c hc
    · rw [if_neg hts] at hc
      by_cases hadd : curLen + (if 0 < curLen then 1 else 0) + tok.length ≤
          maxLen
      · rw [if_pos hadd] at hc
        have hsep : (if 0 < curLen then 1 else 0) =
            (if buffer = [] then 0 else 1) := by
          by_cases hbe : buffer = []
          · subst hbe
            have : curLen = 0 := by
              rw [hcur]
              rfl
            simp [this]
          · have hpos : 0 < joinLen buffer :=
              joinLen_pos hbe (fun t ht => (hbuf t ht).2)
            rw [← hcur] at hpos
            simp [hbe, hpos]
        refine ih (buffer ++ [tok]) _ ?_ ?_ ?_ htoks' c hc
        · rw [joinLen_append_single, ← hcur, hsep]
        · left
          rw [joinLen_append_single, ← hcur, ← hsep]
          exact hadd
        · intro t ht
          rcases List.mem_append.mp ht with ht | ht
          · exact hbuf t ht
          · rw [List.mem_singleton] at ht
            subst ht
            exact ⟨by rw [htok.1], hts⟩
      · rw [if_neg hadd] at hc
        rcases List.mem_append.mp hc with hc | hc
        · cases hgl : buffer.getLast? with
          | none =>
            have hbe : buffer = [] := List.getLast?_eq_none_iff.mp hgl
            simp only [hgl] at hc
            subst hbe
            simp [flushChunk, joinSpace, strip, ldropW, rdropW] at hc
          | some last =>
            simp only [hgl] at hc
            by_cases hpop : popCond language last = true
            · rw [if_pos hpop] at hc
              refine flushChunk_ok ?_ ?_ c hc
              · left
                rcases hdisj with hle | ⟨t, rfl, _⟩
                · exact le_trans (joinLen_dropLast_le buffer) hle
                · simp [joinLen, joinSpace]
              · intro t ht
                exact hbuf t ((List.dropLast_sublist _).subset ht)
            · rw [if_neg hpop] at hc
              exact flushChunk_ok hdisj hbuf c hc
        · refine ih [tok] tok.length ?_ ?_ ?_ htoks' c hc
          · rw [joinLen, joinSpace_single]
          · exact Or.inr ⟨tok, rfl, htok.2⟩
          · intro t ht
            rw [List.mem_singleton] at ht
            subst ht
            exact ⟨by rw [htok.1], hts⟩

/-- C4 (amended): for every paragraph, positive `max_len` and language,
every chunk emitted by `split_into_sentences` is non-empty, contains a
non-whitespace character, and either fits in `max_len` or has soft
delimiters only as its final character (a single over-long merged token
keeps its trailing delimiter attached). -/
theorem split_into_sentences_chunkOk (paragraph : List Char) (maxLen : Nat)
    (language : String) (hm : 0 < maxLen) :
    ∀ c ∈ split_into_sentences paragraph maxLen language,
      c ≠ [] ∧ c.any (fun ch => !pyIsSpace ch) = true ∧
        (c.length ≤ maxLen ∨ internalOk c = true) := by
  intro c hc
  unfold split_into_sentences at hc
  split at hc
  · simp at hc
  · rw [List.mem_flatMap] at hc
    obtain ⟨sent, hsent, hc⟩ := hc
    obtain ⟨y, rfl, hys, hyne⟩ :=
      findSentencesGo_shape _ [] _ sent hsent
    have hyany : y.any (fun ch => !pyIsSpace ch) = true :=
      strip_any_nonspace hys hyne
    have hbany : (unprotectEll y).any (fun ch => !pyIsSpace ch) = true :=
      unprotectEll_any_nonspace hyany
    have hsne : strip (unprotectEll y) ≠ [] := strip_ne_nil_of_any hbany
    have hchunk : chunkOk maxLen c := by
      split at hc
      · rename_i hlen
        rw [List.mem_singleton] at hc
        subst hc
        exact ⟨hsne, strip_idem _, Or.inl hlen⟩
      · refine packLoop_chunkOk maxLen language _ [] 0 rfl
          (Or.inl (by simp [joinLen, joinSpace])) (by simp) ?_ c hc
        intro t ht
        exact mergeParts_splitPartsGo_ok _ [] rfl t ht
    obtain ⟨hne, hstr, hlen⟩ := hchunk
    exact ⟨hne, strip_any_nonspace hstr hne, hlen⟩

/-- Witness for the amended C4 at a concrete input. -/
theorem split_into_sentences_chunkOk_witness :
    0 < 250 ∧
      "ab, cd".toList ∈ split_into_sentences "ab, cd".toList 250 "vi" ∧
      ("ab, cd".toList ≠ [] ∧
        ("ab, cd".toList).any (fun ch => !pyIsSpace ch) = true ∧
        (("ab, cd".toList).length ≤ 250 ∨
          internalOk "ab, cd".toList = true)) :=
  ⟨by decide, by decide,
    split_into_sentences_chunkOk "ab, cd".toList 250 "vi" (by decide)
      "ab, cd".toList (by decide)⟩

/-- C4 as stated is false: with `max_len = 5`, the sentence
`"aaaaaaa, bb"` produces the oversized chunk `"aaaaaaa,"` (8 characters),
which DOES contain a soft delimiter — the trailing comma stays attached to
the indivisible token. -/
theorem split_oversized_chunk_keeps_delim :
    ¬ (∀ c ∈ split_into_sentences "aaaaaaa, bb".toList 5 "vi",
        c.length ≤ 5 ∨ delimFree c = true) := by
  decide

end VixTTS
